import Mathlib

/-!
# Verification of the plumage image generator

Shallow embedding of the plumage source (src/color.rs, src/coords.rs,
src/pixmap.rs, src/params.rs, src/generate.rs).

The source's scalar type `Float` is `f32`; it is modelled here by exact
rationals `ℚ`.  The only `f32` operation without an exact rational
counterpart, `Float::powf`, is passed around as an explicit function
parameter `pw : ℚ → ℚ → ℚ`; theorems that depend on properties of `powf`
state those properties as hypotheses (true of the ideal real power
function on the relevant domain).

The ChaCha pseudo-random generator comes from the `rand_chacha`
dependency, outside this repository.  Its draws are modelled by two
streams `F : ℕ → ℚ` (draws of `rng.gen::<Float>()`) and `B : ℕ → Bool`
(draws of `rng.gen::<bool>()`) indexed by a single shared draw counter
that the generator state threads, which captures exactly the single
total order of draws made from the seeded sequence.
-/

namespace Plumage

/-- `src/color.rs`: the color of a pixel; each component is a `Float`. -/
structure Color where
  red : ℚ
  green : ℚ
  blue : ℚ
  deriving DecidableEq, Repr

namespace Color

/-- `Color::BLACK`. -/
def black : Color := ⟨0, 0, 0⟩

/-- `impl Add for Color` (component-wise). -/
def add (a b : Color) : Color := ⟨a.red + b.red, a.green + b.green, a.blue + b.blue⟩

/-- `impl Mul<Float> for Color` (scale every component). -/
def smul (a : Color) (q : ℚ) : Color := ⟨a.red * q, a.green * q, a.blue * q⟩

/-- `impl Div<Float> for Color` (divide every component). -/
def divF (a : Color) (q : ℚ) : Color := ⟨a.red / q, a.green / q, a.blue / q⟩

/-- `f32::clamp` semantics: below `lo` gives `lo`, above `hi` gives `hi`. -/
def clampQ (x lo hi : ℚ) : ℚ := if x < lo then lo else if x > hi then hi else x

/-- `Color::clamp` (component-wise clamp). -/
def clamp (a : Color) (lo hi : ℚ) : Color :=
  ⟨clampQ a.red lo hi, clampQ a.green lo hi, clampQ a.blue lo hi⟩

/-- `Color::powf` (component-wise `Float::powf`), with the power function
passed explicitly as `pw`. -/
def powf (pw : ℚ → ℚ → ℚ) (a : Color) (n : ℚ) : Color :=
  ⟨pw a.red n, pw a.green n, pw a.blue n⟩

end Color

/-- `src/coords.rs`: the dimensions of an image. -/
structure Dimensions where
  width : ℕ
  height : ℕ
  deriving DecidableEq, Repr

/-- `src/coords.rs`: a position within an image. -/
structure Position where
  x : ℕ
  y : ℕ
  deriving DecidableEq, Repr

namespace Position

/-- `Position::ZERO`. -/
def zero : Position := ⟨0, 0⟩

/-- `impl Add for Position`. -/
def add (a b : Position) : Position := ⟨a.x + b.x, a.y + b.y⟩

/-- `impl Sub for Position` (the source subtracts `usize` values; the
fill pass only subtracts `delta ≤ pos`, where `ℕ` subtraction agrees). -/
def sub (a b : Position) : Position := ⟨a.x - b.x, a.y - b.y⟩

end Position

namespace Dimensions

/-- `Dimensions::square`. -/
def square (w : ℕ) : Dimensions := ⟨w, w⟩

/-- `Dimensions::count`. -/
def count (d : Dimensions) : ℕ := d.width * d.height

/-- `Dimensions::min` (component-wise minimum). -/
def dmin (a b : Dimensions) : Dimensions := ⟨min a.width b.width, min a.height b.height⟩

/-- `impl From<Position> for Dimensions`. -/
def ofPos (p : Position) : Dimensions := ⟨p.x, p.y⟩

/-- The list of positions visited by `Dimensions::for_each`, in its
iteration order: `y` in `0..height` outer, `x` in `0..width` inner. -/
def positionsList (d : Dimensions) : List Position :=
  (List.range d.height).flatMap fun y => (List.range d.width).map fun x => ⟨x, y⟩

theorem mem_positionsList {d : Dimensions} {p : Position} :
    p ∈ d.positionsList ↔ p.x < d.width ∧ p.y < d.height := by
  cases p with
  | mk px py =>
    simp only [positionsList, List.mem_flatMap, List.mem_range, List.mem_map]
    constructor
    · rintro ⟨y, hy, x, hx, h⟩
      cases h
      exact ⟨hx, hy⟩
    · rintro ⟨hx, hy⟩
      exact ⟨py, hy, px, hx, rfl⟩

end Dimensions

/-- `src/params.rs`: shape of the area of neighboring pixels considered
when averaging. -/
inductive Spread where
  | square (width : ℕ)
  | quarterCircle (radius : ℕ)
  deriving DecidableEq, Repr

/-- `Spread::bounds`: the size of the bounding box holding the spread shape. -/
def Spread.bounds : Spread → Dimensions
  | .square w => Dimensions.square (w + 1)
  | .quarterCircle r => Dimensions.square (r + 1)

/-- `src/pixmap.rs`: a two-dimensional array of pixels. -/
structure Pixmap where
  dimensions : Dimensions
  data : List Color
  deriving DecidableEq, Repr

namespace Pixmap

/-- `Pixmap::new`: `count` pixels, all `Color::BLACK`. -/
def new (d : Dimensions) : Pixmap := ⟨d, List.replicate d.count Color.black⟩

/-- `Pixmap::pos_index`. -/
def pos_index (pm : Pixmap) (pos : Position) : ℕ := pos.y * pm.dimensions.width + pos.x

/-- `Pixmap::get_unchecked`, totalised: out-of-bounds reads (which the
source leaves undefined and the fill pass never performs, see C3)
return black. -/
def getPos (pm : Pixmap) (pos : Position) : Color :=
  pm.data.getD (pm.pos_index pos) Color.black

/-- `Pixmap::get_unchecked_mut` followed by a store, totalised:
out-of-bounds writes (never performed by the fill pass, see C3) are
dropped, matching `List.set`. -/
def setPos (pm : Pixmap) (pos : Position) (c : Color) : Pixmap :=
  ⟨pm.dimensions, pm.data.set (pm.pos_index pos) c⟩

/-- The bounds-checked `impl IndexMut<Position> for Pixmap`: `none`
models the panic of out-of-range `Vec` indexing. -/
def setPosChecked (pm : Pixmap) (pos : Position) (c : Color) : Option Pixmap :=
  if pm.pos_index pos < pm.data.length then some (pm.setPos pos c) else none

/-- `(n * 255.0).round().to_int_unchecked::<u8>()`: defined (and
modelled) for channels in `[0,1]`, where the rounded value lies in
`[0,255]` and Rust `round` (half away from zero) agrees with Mathlib
`round` (half up) on non-negative input. -/
def conv (x : ℚ) : ℕ := (round (x * 255)).toNat

/-- One pixel's bytes in the order pushed by `to_bgr_unchecked`:
blue, green, red. -/
def bgrBytes (c : Color) : List ℕ := [conv c.blue, conv c.green, conv c.red]

/-- The pixel loop of `Pixmap::to_bgr_unchecked`: `i` is the running
counter; the source increments `i`, then (when it reaches `width`)
emits the padding and resets `i`, then pushes the BGR bytes of the
current color. -/
def bgrLoop (width padLen : ℕ) : ℕ → List Color → List ℕ
  | _, [] => []
  | i, c :: rest =>
    if i + 1 = width then
      List.replicate padLen 0 ++ bgrBytes c ++ bgrLoop width padLen 0 rest
    else
      bgrBytes c ++ bgrLoop width padLen (i + 1) rest

/-- `Pixmap::to_bgr_unchecked`. -/
def to_bgr (pm : Pixmap) : List ℕ :=
  let row_size := (pm.dimensions.width * 3 + 3) / 4 * 4
  let padding_len := row_size - pm.dimensions.width * 3
  bgrLoop pm.dimensions.width padding_len 0 pm.data

/-- The padded row size computed by `to_bgr_unchecked`:
`(width * 3).div_ceil(4) * 4`. -/
def rowSize (width : ℕ) : ℕ := (width * 3 + 3) / 4 * 4

end Pixmap

/-- `src/lib.rs`: `type Seed = [u8; 32]`, modelled as a byte list. -/
abbrev Seed := List ℕ

/-- `src/params.rs`: the resolved generation parameters. -/
structure Params where
  dimensions : Dimensions
  spread : Spread
  distance_power : ℚ
  random_power : ℚ
  random_max : ℚ
  gamma : ℚ
  start_color : Color
  seed : Seed

/-- `src/generate.rs`: the generator state.  The ChaCha generator
`rng` is modelled by the draw counter `rk` into the two seeded streams
passed to the functions that draw from it. -/
structure Generator where
  spread : Spread
  distance_power : ℚ
  random_power : ℚ
  random_max : ℚ
  gamma : ℚ
  data : Pixmap
  rk : ℕ

namespace Generator

/-- `Generator::new`: allocate the pixmap and preset the seed pixel
`(0,0)` to `start_color` (here with the total `List.set`; the checked
variant that models the panicking `IndexMut` is `newChecked`). -/
def new (p : Params) : Generator :=
  { spread := p.spread
    distance_power := p.distance_power
    random_power := p.random_power
    random_max := p.random_max
    gamma := p.gamma
    data := (Pixmap.new p.dimensions).setPos Position.zero p.start_color
    rk := 0 }

/-- `Generator::new` with the bounds-checked `IndexMut` write the
source actually performs (`data[Position::new(0, 0)] = params.start_color`):
`none` models the index-out-of-bounds panic of `Vec` indexing. -/
def newChecked (p : Params) : Option Generator :=
  ((Pixmap.new p.dimensions).setPosChecked Position.zero p.start_color).map fun pm =>
    { spread := p.spread
      distance_power := p.distance_power
      random_power := p.random_power
      random_max := p.random_max
      gamma := p.gamma
      data := pm
      rk := 0 }

/-- The quarter-circle skip test inside `avg_neighbor_unchecked`:
`if dist > radius as Float { return; }`. -/
def skipQC (s : Spread) (dist : ℚ) : Bool :=
  match s with
  | .quarterCircle radius => decide (dist > (radius : ℚ))
  | .square _ => false

/-- One step of the accumulation loop in `avg_neighbor_unchecked`:
skips the zero offset, computes `dist`, applies the quarter-circle
skip, reads the neighbor, and accumulates weight and weighted color. -/
def avgStep (pw : ℚ → ℚ → ℚ) (g : Generator) (pos : Position)
    (acc : ℚ × Color) (delta : Position) : ℚ × Color :=
  if delta = Position.zero then acc
  else
    let dx : ℚ := (delta.x : ℚ)
    let dy : ℚ := (delta.y : ℚ)
    let dist := pw (pw dx 2 + pw dy 2) (1 / 2)
    if skipQC g.spread dist then acc
    else
      let neighbor := pos.sub delta
      let color := g.data.getPos neighbor
      let weight := pw dist g.distance_power
      (acc.1 + weight, acc.2.add (color.smul weight))

/-- `Generator::avg_neighbor_unchecked`: fold the accumulation step
over the clipped bounding window in `for_each` order, then divide the
color sum by the weight sum. -/
def avg_neighbor (pw : ℚ → ℚ → ℚ) (g : Generator) (pos : Position) : Color :=
  let bounds := g.spread.bounds.dmin (Dimensions.ofPos (pos.add ⟨1, 1⟩))
  let r := bounds.positionsList.foldl (avgStep pw g pos) (0, Color.black)
  r.2.divF r.1

/-- `rng.gen::<Float>()`: draw the value at the current counter and
advance the counter. -/
def genF (F : ℕ → ℚ) (k : ℕ) : ℚ × ℕ := (F k, k + 1)

/-- `rng.gen::<bool>()`: draw the value at the current counter and
advance the counter. -/
def genB (B : ℕ → Bool) (k : ℕ) : Bool × ℕ := (B k, k + 1)

/-- The `component` closure inside `Generator::random_near`: one
magnitude draw, `n.powf(random_power) * random_max`, one sign draw,
`n * Float::from(positive as i8 * 2 - 1)`. -/
def component (pw : ℚ → ℚ → ℚ) (F : ℕ → ℚ) (B : ℕ → Bool)
    (random_power random_max : ℚ) (k : ℕ) : ℚ × ℕ :=
  let nk := genF F k
  let n := pw nk.1 random_power * random_max
  let pk := genB B nk.2
  (n * (if pk.1 then (1 : ℚ) else -1), pk.2)

/-- `Generator::random_near`: the struct literal evaluates `component`
for `red`, then `green`, then `blue`, then clamps `color + delta` to
`[0, 1]`. -/
def random_near (pw : ℚ → ℚ → ℚ) (F : ℕ → ℚ) (B : ℕ → Bool)
    (random_power random_max : ℚ) (k : ℕ) (color : Color) : Color × ℕ :=
  let r := component pw F B random_power random_max k
  let g := component pw F B random_power random_max r.2
  let b := component pw F B random_power random_max g.2
  let delta : Color := ⟨r.1, g.1, b.1⟩
  ((color.add delta).clamp 0 1, b.2)

/-- `Generator::fill_pos_unchecked`: average the neighbors, jitter,
and store the result at `pos` (also advancing the rng counter). -/
def fill_pos (pw : ℚ → ℚ → ℚ) (F : ℕ → ℚ) (B : ℕ → Bool)
    (g : Generator) (pos : Position) : Generator :=
  let neighbor := avg_neighbor pw g pos
  let ck := random_near pw F B g.random_power g.random_max g.rk neighbor
  { g with data := g.data.setPos pos ck.1, rk := ck.2 }

/-- One iteration of `Generator::fill`'s `for_each` body: skip the
starting pixel, otherwise fill. -/
def fillStep (pw : ℚ → ℚ → ℚ) (F : ℕ → ℚ) (B : ℕ → Bool)
    (g : Generator) (pos : Position) : Generator :=
  if pos = Position.zero then g else fill_pos pw F B g pos

/-- `Generator::fill`: visit every position of the image in `for_each`
(row-major) order. -/
def fill (pw : ℚ → ℚ → ℚ) (F : ℕ → ℚ) (B : ℕ → Bool) (g : Generator) : Generator :=
  g.data.dimensions.positionsList.foldl (fillStep pw F B) g

/-- `Generator::apply_gamma`: replace every color by `color.powf(gamma)`. -/
def apply_gamma (pw : ℚ → ℚ → ℚ) (g : Generator) : Generator :=
  { g with data := ⟨g.data.dimensions, g.data.data.map fun c => c.powf pw g.gamma⟩ }

/-- `Generator::apply_all`: the fill pass, then the gamma pass. -/
def apply_all (pw : ℚ → ℚ → ℚ) (F : ℕ → ℚ) (B : ℕ → Bool) (g : Generator) : Generator :=
  apply_gamma pw (fill pw F B g)

end Generator

/-- `b"BM"` as bytes. -/
def bmTag : List ℕ := [0x42, 0x4D]

/-- `b"PLMG"` as bytes. -/
def plmgTag : List ℕ := [0x50, 0x4C, 0x4D, 0x47]

/-- `u32::to_le_bytes` (of the low 32 bits of a natural number). -/
def le32 (n : ℕ) : List ℕ :=
  [n % 256, n / 256 % 256, n / 65536 % 256, n / 16777216 % 256]

/-- `u16::to_le_bytes`. -/
def le16 (n : ℕ) : List ℕ := [n % 256, n / 256 % 256]

/-- `(h as u32).wrapping_neg()`: two's-complement negation on 32 bits. -/
def wneg32 (h : ℕ) : ℕ := (2 ^ 32 - h % 2 ^ 32) % 2 ^ 32

namespace Generator

/-- The chunks `Generator::generate_with` pushes to the sink, in
order: the bitmap file header, the BITMAPINFOHEADER fields, then the
pixel array. -/
def generateChunks (pw : ℚ → ℚ → ℚ) (F : ℕ → ℚ) (B : ℕ → Bool)
    (g : Generator) : List (List ℕ) :=
  let g := apply_all pw F B g
  let dim := g.data.dimensions
  let bgr := g.data.to_bgr
  let size := 14 + 40 + bgr.length
  [bmTag, le32 size, plmgTag, le32 (14 + 40),
    le32 40, le32 dim.width, le32 (wneg32 dim.height), le16 1, le16 24,
    le32 0, le32 0, le32 96, le32 96, le32 0, le32 0, bgr]

/-- `Generator::generate_with`: the sink `push` is modelled as a
stateful function (state type `S`, error type `E`); each `push(...)?`
of the source becomes a match that returns the error unchanged and
makes no further calls. -/
def generate_with {S E : Type} (pw : ℚ → ℚ → ℚ) (F : ℕ → ℚ) (B : ℕ → Bool)
    (g : Generator) (push : List ℕ → S → S × Except E Unit) (s : S) :
    S × Except E Unit :=
  let g := apply_all pw F B g
  let dim := g.data.dimensions
  let bgr := g.data.to_bgr
  let size := 14 + 40 + bgr.length
  match push bmTag s with
  | (s, Except.error e) => (s, Except.error e)
  | (s, Except.ok _) =>
  match push (le32 size) s with
  | (s, Except.error e) => (s, Except.error e)
  | (s, Except.ok _) =>
  match push plmgTag s with
  | (s, Except.error e) => (s, Except.error e)
  | (s, Except.ok _) =>
  match push (le32 (14 + 40)) s with
  | (s, Except.error e) => (s, Except.error e)
  | (s, Except.ok _) =>
  match push (le32 40) s with
  | (s, Except.error e) => (s, Except.error e)
  | (s, Except.ok _) =>
  match push (le32 dim.width) s with
  | (s, Except.error e) => (s, Except.error e)
  | (s, Except.ok _) =>
  match push (le32 (wneg32 dim.height)) s with
  | (s, Except.error e) => (s, Except.error e)
  | (s, Except.ok _) =>
  match push (le16 1) s with
  | (s, Except.error e) => (s, Except.error e)
  | (s, Except.ok _) =>
  match push (le16 24) s with
  | (s, Except.error e) => (s, Except.error e)
  | (s, Except.ok _) =>
  match push (le32 0) s with
  | (s, Except.error e) => (s, Except.error e)
  | (s, Except.ok _) =>
  match push (le32 0) s with
  | (s, Except.error e) => (s, Except.error e)
  | (s, Except.ok _) =>
  match push (le32 96) s with
  | (s, Except.error e) => (s, Except.error e)
  | (s, Except.ok _) =>
  match push (le32 96) s with
  | (s, Except.error e) => (s, Except.error e)
  | (s, Except.ok _) =>
  match push (le32 0) s with
  | (s, Except.error e) => (s, Except.error e)
  | (s, Except.ok _) =>
  match push (le32 0) s with
  | (s, Except.error e) => (s, Except.error e)
  | (s, Except.ok _) =>
  match push bgr s with
  | (s, Except.error e) => (s, Except.error e)
  | (s, Except.ok _) => (s, Except.ok ())

end Generator

/-- Spec-shaped sink runner: push each chunk in order; stop at the
first sink error and return that error value unchanged; return `ok`
exactly when every call returned `ok`. -/
def runChunks {S E : Type} (push : List ℕ → S → S × Except E Unit) :
    List (List ℕ) → S → S × Except E Unit
  | [], s => (s, Except.ok ())
  | c :: rest, s =>
    match push c s with
    | (s, Except.error e) => (s, Except.error e)
    | (s, Except.ok _) => runChunks push rest s

/-- The sink invocations (chunk argument and sink state at the call)
a sequential run of the chunks performs, stopping after the first
erroring call. -/
def sinkCalls {S E : Type} (push : List ℕ → S → S × Except E Unit) :
    List (List ℕ) → S → List (List ℕ × S)
  | [], _ => []
  | c :: rest, s =>
    (c, s) ::
      match push c s with
      | (s, Except.ok _) => sinkCalls push rest s
      | (_, Except.error _) => []

/-- The channel-bound predicate of the spec: all three channels lie in
`[0, 1]`. -/
def chOK (c : Color) : Prop :=
  0 ≤ c.red ∧ c.red ≤ 1 ∧ 0 ≤ c.green ∧ c.green ≤ 1 ∧ 0 ≤ c.blue ∧ c.blue ≤ 1

instance (c : Color) : Decidable (chOK c) := by
  unfold chOK
  infer_instance

/-! ## Helper lemmas -/

theorem clampQ_mem_unit (x : ℚ) :
    0 ≤ Color.clampQ x 0 1 ∧ Color.clampQ x 0 1 ≤ 1 := by
  unfold Color.clampQ
  split_ifs with h1 h2
  · norm_num
  · norm_num
  · constructor <;> linarith [not_lt.mp h1, not_lt.mp h2]

theorem chOK_clamp (c : Color) : chOK (c.clamp 0 1) := by
  unfold chOK Color.clamp
  obtain ⟨h1, h2⟩ := clampQ_mem_unit c.red
  obtain ⟨h3, h4⟩ := clampQ_mem_unit c.green
  obtain ⟨h5, h6⟩ := clampQ_mem_unit c.blue
  exact ⟨h1, h2, h3, h4, h5, h6⟩

theorem chOK_random_near_fst (pw : ℚ → ℚ → ℚ) (F : ℕ → ℚ) (B : ℕ → Bool)
    (rp rm : ℚ) (k : ℕ) (c : Color) :
    chOK (Generator.random_near pw F B rp rm k c).1 := by
  unfold Generator.random_near
  exact chOK_clamp _

/-- Length of the bytes pushed by the pixel loop of
`to_bgr_unchecked`: three bytes per color plus one padding block every
time the running counter reaches `width`. -/
theorem bgrLoop_length (width padLen : ℕ) (hw : 0 < width) (data : List Color) :
    ∀ i : ℕ, i < width →
      (Pixmap.bgrLoop width padLen i data).length
        = 3 * data.length + padLen * ((i + data.length) / width) := by
  induction data with
  | nil =>
    intro i hi
    simp [Pixmap.bgrLoop, Nat.div_eq_of_lt hi]
  | cons c rest ih =>
    intro i hi
    by_cases h : i + 1 = width
    · simp only [Pixmap.bgrLoop, if_pos h, List.length_append, List.length_replicate,
        Pixmap.bgrBytes, List.length_cons, List.length_nil]
      rw [ih 0 hw]
      have hnum : i + (rest.length + 1) = rest.length + width := by omega
      rw [hnum, Nat.add_div_right _ hw]
      ring_nf
    · have hi' : i + 1 < width := lt_of_le_of_ne hi h
      simp only [Pixmap.bgrLoop, if_neg h, List.length_append,
        Pixmap.bgrBytes, List.length_cons, List.length_nil]
      rw [ih (i + 1) hi']
      have hnum : i + 1 + rest.length = i + (rest.length + 1) := by omega
      rw [hnum]
      ring_nf

/-! ## Claims -/

/-- C1: the claim states that each row's pixels are emitted as BGR
triples FOLLOWED by the zero padding, and that for dimensions `{1,1}`
the pixel data is the 3 BGR bytes followed by 1 zero byte.  The code
increments and tests the row counter BEFORE pushing the current
pixel's bytes, so the padding is emitted just before the last pixel of
every row: for a `1×1` image whose single pixel is white the code
produces `[0, 255, 255, 255]`, not `[255, 255, 255, 0]`. -/
theorem c1_padding_before_last_pixel :
    Pixmap.to_bgr ⟨⟨1, 1⟩, [⟨1, 1, 1⟩]⟩ = [0, 255, 255, 255] ∧
    Pixmap.to_bgr ⟨⟨1, 1⟩, [⟨1, 1, 1⟩]⟩ ≠ [255, 255, 255, 0] := by
  have hconv : Pixmap.conv 1 = 255 := by
    unfold Pixmap.conv
    norm_num [round_eq]
    rfl
  have h : Pixmap.to_bgr ⟨⟨1, 1⟩, [⟨1, 1, 1⟩]⟩ = [0, 255, 255, 255] := by
    simp [Pixmap.to_bgr, Pixmap.bgrLoop, Pixmap.bgrBytes, hconv]
  refine ⟨h, ?_⟩
  rw [h]
  decide

/-- C5: the byte sequence returned by `to_bgr_unchecked` has length
`height * row_size` where `row_size = (width*3).div_ceil(4) * 4`;
moreover `row_size` is a multiple of 4 and exceeds `width*3` by at
most 3. -/
theorem c5_to_bgr_length (pm : Pixmap)
    (hchan : ∀ c ∈ pm.data, chOK c)
    (hlen : pm.data.length = pm.dimensions.count) :
    pm.to_bgr.length = pm.dimensions.height * Pixmap.rowSize pm.dimensions.width ∧
    Pixmap.rowSize pm.dimensions.width % 4 = 0 ∧
    pm.dimensions.width * 3 ≤ Pixmap.rowSize pm.dimensions.width ∧
    Pixmap.rowSize pm.dimensions.width - pm.dimensions.width * 3 < 4 := by
  obtain ⟨⟨w, h⟩, data⟩ := pm
  dsimp only [Dimensions.count] at hlen ⊢
  refine ⟨?_, ?_, ?_, ?_⟩
  · rcases Nat.eq_zero_or_pos w with hw | hw
    · subst hw
      simp only [Nat.zero_mul] at hlen
      rw [List.eq_nil_of_length_eq_zero hlen]
      simp [Pixmap.to_bgr, Pixmap.bgrLoop, Pixmap.rowSize]
    · have hbody : Pixmap.to_bgr ⟨⟨w, h⟩, data⟩ =
          Pixmap.bgrLoop w ((w * 3 + 3) / 4 * 4 - w * 3) 0 data := rfl
      rw [hbody, bgrLoop_length w _ hw data 0 hw, hlen, Nat.zero_add,
        Nat.mul_div_cancel_left h hw]
      unfold Pixmap.rowSize
      have h3 : w * 3 ≤ (w * 3 + 3) / 4 * 4 := by omega
      cases Nat.le.dest h3 with
      | intro k hk =>
        rw [← hk]
        have hk' : w * 3 + k - w * 3 = k := by omega
        rw [hk']
        ring_nf
  · exact Nat.mul_mod_left _ 4
  · unfold Pixmap.rowSize
    omega
  · unfold Pixmap.rowSize
    omega

/-- C10: `Generator::new` presets the seed pixel through the
bounds-checked `IndexMut` implementation, so it panics (modelled as
`none`) exactly when the pixel count `width * height` is zero, and
construction succeeds exactly when both dimensions are at least 1. -/
theorem c10_new_checked (p : Params) :
    ((Generator.newChecked p).isSome ↔
      1 ≤ p.dimensions.width ∧ 1 ≤ p.dimensions.height) ∧
    (Generator.newChecked p = none ↔
      p.dimensions.width = 0 ∨ p.dimensions.height = 0) := by
  have hcond : ((Pixmap.new p.dimensions).pos_index Position.zero <
      (Pixmap.new p.dimensions).data.length) ↔
      (1 ≤ p.dimensions.width ∧ 1 ≤ p.dimensions.height) := by
    show 0 * p.dimensions.width + 0 <
      (List.replicate p.dimensions.count Color.black).length ↔ _
    rw [List.length_replicate, Nat.zero_mul, Nat.zero_add]
    show 0 < p.dimensions.width * p.dimensions.height ↔ _
    rw [Nat.pos_iff_ne_zero, Ne, Nat.mul_eq_zero]
    omega
  unfold Generator.newChecked Pixmap.setPosChecked
  by_cases hc : (Pixmap.new p.dimensions).pos_index Position.zero <
      (Pixmap.new p.dimensions).data.length
  · rw [if_pos hc]
    rw [hcond] at hc
    constructor
    · simp only [Option.map_some', Option.isSome_some, true_iff]
      exact hc
    · simp only [Option.map_some']
      constructor
      · intro hnone
        exact absurd hnone (Option.some_ne_none _)
      · intro h0
        omega
  · rw [if_neg hc]
    rw [hcond] at hc
    constructor
    · simp only [Option.map_none', Option.isSome_none]
      constructor
      · intro hfalse
        exact absurd hfalse (by simp)
      · intro h1
        exact absurd h1 hc
    · simp only [Option.map_none', true_iff]
      omega

/-- C7: `random_near` makes exactly six draws from the seeded sequence
starting at the current counter `k`, in the order red-magnitude
(`F k`), red-sign (`B (k+1)`), green-magnitude (`F (k+2)`), green-sign
(`B (k+3)`), blue-magnitude (`F (k+4)`), blue-sign (`B (k+5)`) — the
returned counter is `k + 6` — and each output channel is
`clamp(c.channel + s * (u^random_power * random_max), 0, 1)` with `s = 1`
for a true sign draw and `-1` otherwise. -/
theorem c7_random_near_draws (pw : ℚ → ℚ → ℚ) (F : ℕ → ℚ) (B : ℕ → Bool)
    (rp rm : ℚ) (k : ℕ) (c : Color) :
    Generator.random_near pw F B rp rm k c =
      (Color.clamp
        ⟨c.red + (if B (k + 1) then (1 : ℚ) else -1) * (pw (F k) rp * rm),
         c.green + (if B (k + 3) then (1 : ℚ) else -1) * (pw (F (k + 2)) rp * rm),
         c.blue + (if B (k + 5) then (1 : ℚ) else -1) * (pw (F (k + 4)) rp * rm)⟩
        0 1,
       k + 6) := by
  have harg : Color.add c
      ⟨pw (F k) rp * rm * (if B (k + 1) then (1 : ℚ) else -1),
       pw (F (k + 2)) rp * rm * (if B (k + 3) then (1 : ℚ) else -1),
       pw (F (k + 4)) rp * rm * (if B (k + 5) then (1 : ℚ) else -1)⟩ =
      ⟨c.red + (if B (k + 1) then (1 : ℚ) else -1) * (pw (F k) rp * rm),
       c.green + (if B (k + 3) then (1 : ℚ) else -1) * (pw (F (k + 2)) rp * rm),
       c.blue + (if B (k + 5) then (1 : ℚ) else -1) * (pw (F (k + 4)) rp * rm)⟩ := by
    unfold Color.add
    congr 1 <;> ring_nf
  show (Color.clamp (Color.add c
      ⟨pw (F k) rp * rm * (if B (k + 1) then (1 : ℚ) else -1),
       pw (F (k + 2)) rp * rm * (if B (k + 3) then (1 : ℚ) else -1),
       pw (F (k + 4)) rp * rm * (if B (k + 5) then (1 : ℚ) else -1)⟩) 0 1, k + 6) = _
  rw [harg]

/-- Row-major (raster) order comparison: a position with a smaller row,
or the same row and a smaller column, has a smaller flat index. -/
theorem raster_lt (w : ℕ) (a b : Position) (hax : a.x < w)
    (h : a.y < b.y ∨ (a.y = b.y ∧ a.x < b.x)) :
    a.y * w + a.x < b.y * w + b.x := by
  rcases h with h | ⟨h1, h2⟩
  · have hmul : (a.y + 1) * w ≤ b.y * w := Nat.mul_le_mul_right w h
    rw [Nat.succ_mul] at hmul
    omega
  · rw [h1]
    omega

/-- C3: every offset `delta` enumerated by the clipped neighbor window
of `avg_neighbor_unchecked` satisfies `delta.x ≤ pos.x` and
`delta.y ≤ pos.y` (so `pos - delta` never underflows); the current
pixel's flat index is in bounds; and for non-zero `delta` the neighbor
`pos - delta` is in bounds with a strictly smaller raster index than
`pos` (so under the row-major fill order it was written in an earlier
iteration, or is the preset seed pixel `(0,0)`), hence every unchecked
access of the fill pass is in bounds. -/
theorem c3_neighbor_window_safe (s : Spread) (d : Dimensions) (pos delta : Position)
    (hx : pos.x < d.width) (hy : pos.y < d.height)
    (hmem : delta ∈ (s.bounds.dmin (Dimensions.ofPos (pos.add ⟨1, 1⟩))).positionsList) :
    delta.x ≤ pos.x ∧ delta.y ≤ pos.y ∧
      pos.y * d.width + pos.x < d.count ∧
      (delta ≠ Position.zero →
        (pos.sub delta).x < d.width ∧ (pos.sub delta).y < d.height ∧
          (pos.sub delta).y * d.width + (pos.sub delta).x <
            pos.y * d.width + pos.x) := by
  rw [Dimensions.mem_positionsList] at hmem
  obtain ⟨px, py⟩ := pos
  obtain ⟨dx, dy⟩ := delta
  dsimp only at hx hy ⊢
  simp only [Dimensions.dmin, Dimensions.ofPos, Position.add, lt_min_iff] at hmem
  obtain ⟨⟨_, hdx⟩, _, hdy⟩ := hmem
  have hdx' : dx ≤ px := by omega
  have hdy' : dy ≤ py := by omega
  have hposidx : py * d.width + px < d.count := by
    have h1 : (py + 1) * d.width ≤ d.height * d.width :=
      Nat.mul_le_mul_right d.width hy
    rw [Nat.succ_mul] at h1
    unfold Dimensions.count
    rw [Nat.mul_comm d.width d.height]
    omega
  refine ⟨hdx', hdy', hposidx, ?_⟩
  intro hnz
  have hnz' : ¬(dx = 0 ∧ dy = 0) := by
    intro ⟨h1, h2⟩
    exact hnz (by rw [h1, h2]; rfl)
  unfold Position.sub
  dsimp only
  refine ⟨by omega, by omega, ?_⟩
  exact raster_lt d.width ⟨px - dx, py - dy⟩ ⟨px, py⟩ (by dsimp only; omega)
    (by dsimp only; omega)

/-- With a sink that always accepts, the sequential chunk run visits
every chunk, succeeds, and leaves the sink state folded over all
chunks. -/
theorem runChunks_of_allOk {S E : Type} (push : List ℕ → S → S × Except E Unit)
    (hok : ∀ c s, (push c s).2 = Except.ok ()) :
    ∀ (chunks : List (List ℕ)) (s : S),
      runChunks push chunks s =
        (chunks.foldl (fun t c => (push c t).1) s, Except.ok ()) := by
  intro chunks
  induction chunks with
  | nil =>
    intro s
    rfl
  | cons c rest ih =>
    intro s
    have hc := hok c s
    rcases hp : push c s with ⟨s', r⟩
    rw [hp] at hc
    dsimp only at hc
    subst hc
    simp only [runChunks, List.foldl_cons, hp]
    exact ih s'

/-- With a sink that always accepts, the run calls the sink once per
chunk, in order, with exactly the chunk sequence. -/
theorem sinkCalls_of_allOk {S E : Type} (push : List ℕ → S → S × Except E Unit)
    (hok : ∀ c s, (push c s).2 = Except.ok ()) :
    ∀ (chunks : List (List ℕ)) (s : S),
      (sinkCalls push chunks s).map Prod.fst = chunks := by
  intro chunks
  induction chunks with
  | nil =>
    intro s
    rfl
  | cons c rest ih =>
    intro s
    have hc := hok c s
    rcases hp : push c s with ⟨s', r⟩
    rw [hp] at hc
    dsimp only at hc
    subst hc
    simp only [sinkCalls, hp, List.map_cons]
    rw [ih s']

/-- The sequential chunk run returns `ok` exactly when every sink
invocation it makes returns `ok`. -/
theorem runChunks_ok_iff {S E : Type} (push : List ℕ → S → S × Except E Unit) :
    ∀ (chunks : List (List ℕ)) (s : S),
      (runChunks push chunks s).2 = Except.ok () ↔
        ∀ q ∈ sinkCalls push chunks s, (push q.1 q.2).2 = Except.ok () := by
  intro chunks
  induction chunks with
  | nil =>
    intro s
    simp [runChunks, sinkCalls]
  | cons c rest ih =>
    intro s
    rcases hp : push c s with ⟨s', r⟩
    cases r with
    | ok u =>
      cases u
      simp only [runChunks, sinkCalls, hp, List.mem_cons]
      constructor
      · intro h q hq
        rcases hq with rfl | hq
        · rw [hp]
        · exact (ih s').mp h q hq
      · intro h
        exact (ih s').mpr fun q hq => h q (Or.inr hq)
    | error e0 =>
      simp only [runChunks, sinkCalls, hp, List.mem_cons]
      constructor
      · intro h
        exact absurd h (by simp)
      · intro h
        have hcs := h (c, s) (Or.inl rfl)
        rw [hp] at hcs
        exact absurd hcs (by simp)

/-- The sequential chunk run returns `error e` exactly when one of the
sink invocations it makes (necessarily the last one) returns
`error e`; the error value is passed through unchanged. -/
theorem runChunks_error_iff {S E : Type} (push : List ℕ → S → S × Except E Unit) (e : E) :
    ∀ (chunks : List (List ℕ)) (s : S),
      (runChunks push chunks s).2 = Except.error e ↔
        ∃ q ∈ sinkCalls push chunks s, (push q.1 q.2).2 = Except.error e := by
  intro chunks
  induction chunks with
  | nil =>
    intro s
    simp [runChunks, sinkCalls]
  | cons c rest ih =>
    intro s
    rcases hp : push c s with ⟨s', r⟩
    cases r with
    | ok u =>
      cases u
      simp only [runChunks, sinkCalls, hp, List.mem_cons]
      constructor
      · intro h
        obtain ⟨q, hq, hqe⟩ := (ih s').mp h
        exact ⟨q, Or.inr hq, hqe⟩
      · rintro ⟨q, hq | hq, hqe⟩
        · subst hq
          rw [hp] at hqe
          exact absurd hqe (by simp)
        · exact (ih s').mpr ⟨q, hq, hqe⟩
    | error e0 =>
      simp only [runChunks, sinkCalls, hp, List.mem_cons]
      constructor
      · intro h
        refine ⟨(c, s), Or.inl rfl, ?_⟩
        rw [hp]
        exact h
      · rintro ⟨q, hq | hq, hqe⟩
        · subst hq
          rw [hp] at hqe
          exact hqe
        · exact absurd hq (List.not_mem_nil q)

/-- `generate_with` is exactly the sequential run of its chunk list:
the `?`-propagation of the source matches the short-circuiting of
`runChunks`. -/
theorem generate_with_eq_runChunks {S E : Type} (pw : ℚ → ℚ → ℚ) (F : ℕ → ℚ)
    (B : ℕ → Bool) (g : Generator) (push : List ℕ → S → S × Except E Unit) (s : S) :
    Generator.generate_with pw F B g push s =
      runChunks push (Generator.generateChunks pw F B g) s := rfl

/-- `fillStep` never changes the image dimensions. -/
theorem fillStep_dims (pw : ℚ → ℚ → ℚ) (F : ℕ → ℚ) (B : ℕ → Bool)
    (g : Generator) (pos : Position) :
    (Generator.fillStep pw F B g pos).data.dimensions = g.data.dimensions := by
  unfold Generator.fillStep Generator.fill_pos Pixmap.setPos
  by_cases h : pos = Position.zero
  · rw [if_pos h]
  · rw [if_neg h]

/-- The fill pass never changes the image dimensions. -/
theorem fill_dims (pw : ℚ → ℚ → ℚ) (F : ℕ → ℚ) (B : ℕ → Bool) (g : Generator) :
    (Generator.fill pw F B g).data.dimensions = g.data.dimensions := by
  unfold Generator.fill
  generalize g.data.dimensions.positionsList = l
  induction l generalizing g with
  | nil => rfl
  | cons p rest ih =>
    rw [List.foldl_cons, ih, fillStep_dims]

/-- The whole pipeline never changes the image dimensions. -/
theorem apply_all_dims (pw : ℚ → ℚ → ℚ) (F : ℕ → ℚ) (B : ℕ → Bool) (g : Generator) :
    (Generator.apply_all pw F B g).data.dimensions = g.data.dimensions := by
  unfold Generator.apply_all Generator.apply_gamma
  exact fill_dims pw F B g

/-- C9: `generate_with` equals the spec-shaped sequential sink run of
its chunks — so it stops at the first sink error, makes no further
calls and returns that error value unchanged — and it returns `ok`
exactly when every sink invocation returned `ok`, and returns
`error e` exactly when a sink invocation produced `error e` (so it has
no failure mode of its own). -/
theorem c9_error_propagation {S E : Type} (pw : ℚ → ℚ → ℚ) (F : ℕ → ℚ) (B : ℕ → Bool)
    (g : Generator) (push : List ℕ → S → S × Except E Unit) (s : S) :
    Generator.generate_with pw F B g push s =
      runChunks push (Generator.generateChunks pw F B g) s ∧
    ((Generator.generate_with pw F B g push s).2 = Except.ok () ↔
      ∀ q ∈ sinkCalls push (Generator.generateChunks pw F B g) s,
        (push q.1 q.2).2 = Except.ok ()) ∧
    (∀ e : E, (Generator.generate_with pw F B g push s).2 = Except.error e ↔
      ∃ q ∈ sinkCalls push (Generator.generateChunks pw F B g) s,
        (push q.1 q.2).2 = Except.error e) := by
  refine ⟨generate_with_eq_runChunks pw F B g push s, ?_, ?_⟩
  · rw [generate_with_eq_runChunks]
    exact runChunks_ok_iff push _ s
  · intro e
    rw [generate_with_eq_runChunks]
    exact runChunks_error_iff push e _ s

/-- C4: with the pseudo-random streams a fixed function of the seed
(modelling the fixed ChaCha algorithm), the chunk sequence pushed by
`generate_with` is `generateChunks`, a pure function of the
`ParameterSet` alone: two runs over any two accepting sinks (of
different state and error types) receive identical byte sequences,
and each run succeeds with its sink state folded over that sequence. -/
theorem c4_determinism {S1 S2 E1 E2 : Type} (pw : ℚ → ℚ → ℚ)
    (Ff : Seed → ℕ → ℚ) (Bf : Seed → ℕ → Bool) (p : Params)
    (push1 : List ℕ → S1 → S1 × Except E1 Unit)
    (push2 : List ℕ → S2 → S2 × Except E2 Unit) (s1 : S1) (s2 : S2)
    (h1 : ∀ c s, (push1 c s).2 = Except.ok ())
    (h2 : ∀ c s, (push2 c s).2 = Except.ok ()) :
    (sinkCalls push1 (Generator.generateChunks pw (Ff p.seed) (Bf p.seed)
        (Generator.new p)) s1).map Prod.fst =
      (sinkCalls push2 (Generator.generateChunks pw (Ff p.seed) (Bf p.seed)
        (Generator.new p)) s2).map Prod.fst ∧
    Generator.generate_with pw (Ff p.seed) (Bf p.seed) (Generator.new p) push1 s1 =
      ((Generator.generateChunks pw (Ff p.seed) (Bf p.seed)
        (Generator.new p)).foldl (fun t c => (push1 c t).1) s1, Except.ok ()) ∧
    Generator.generate_with pw (Ff p.seed) (Bf p.seed) (Generator.new p) push2 s2 =
      ((Generator.generateChunks pw (Ff p.seed) (Bf p.seed)
        (Generator.new p)).foldl (fun t c => (push2 c t).1) s2, Except.ok ()) := by
  refine ⟨?_, ?_, ?_⟩
  · rw [sinkCalls_of_allOk push1 h1, sinkCalls_of_allOk push2 h2]
  · rw [generate_with_eq_runChunks, runChunks_of_allOk push1 h1]
  · rw [generate_with_eq_runChunks, runChunks_of_allOk push2 h2]

/-- C6: before any pixel data, `generate_with` pushes exactly the
54-byte little-endian header: `"BM"` (bytes 66 77), the 32-bit file
size `14 + 40 + pixel_data_len`, the ASCII reserved marker `"PLMG"`
(bytes 80 76 77 71), the pixel-data offset 54, the header size 40, the
image width, the image height negated as a signed (two's-complement)
32-bit value, planes 1 and bits-per-pixel 24 as 16-bit values,
compression 0, image data size 0, both resolutions 96, palette colors
0 and important colors 0 — followed by the pixel array as the final
chunk. -/
theorem c6_header_layout (pw : ℚ → ℚ → ℚ) (F : ℕ → ℚ) (B : ℕ → Bool) (g : Generator) :
    Generator.generateChunks pw F B g =
      [[66, 77],
       le32 (14 + 40 + (Generator.apply_all pw F B g).data.to_bgr.length),
       [80, 76, 77, 71],
       le32 54,
       le32 40,
       le32 g.data.dimensions.width,
       le32 ((2 ^ 32 - g.data.dimensions.height % 2 ^ 32) % 2 ^ 32),
       le16 1,
       le16 24,
       le32 0, le32 0, le32 96, le32 96, le32 0, le32 0,
       (Generator.apply_all pw F B g).data.to_bgr] ∧
    ((Generator.generateChunks pw F B g).take 15).flatten.length = 54 := by
  have hmain : Generator.generateChunks pw F B g =
      [[66, 77],
       le32 (14 + 40 + (Generator.apply_all pw F B g).data.to_bgr.length),
       [80, 76, 77, 71],
       le32 54,
       le32 40,
       le32 g.data.dimensions.width,
       le32 ((2 ^ 32 - g.data.dimensions.height % 2 ^ 32) % 2 ^ 32),
       le16 1,
       le16 24,
       le32 0, le32 0, le32 96, le32 96, le32 0, le32 0,
       (Generator.apply_all pw F B g).data.to_bgr] := by
    simp only [Generator.generateChunks, bmTag, plmgTag, wneg32, apply_all_dims]
  refine ⟨hmain, ?_⟩
  rw [hmain]
  simp [le32, le16]

/-- `fillStep` never changes the gamma parameter. -/
theorem fillStep_gamma (pw : ℚ → ℚ → ℚ) (F : ℕ → ℚ) (B : ℕ → Bool)
    (g : Generator) (pos : Position) :
    (Generator.fillStep pw F B g pos).gamma = g.gamma := by
  unfold Generator.fillStep Generator.fill_pos
  by_cases h : pos = Position.zero
  · rw [if_pos h]
  · rw [if_neg h]

/-- The fill pass never changes the gamma parameter. -/
theorem fill_gamma (pw : ℚ → ℚ → ℚ) (F : ℕ → ℚ) (B : ℕ → Bool) (g : Generator) :
    (Generator.fill pw F B g).gamma = g.gamma := by
  unfold Generator.fill
  generalize g.data.dimensions.positionsList = l
  induction l generalizing g with
  | nil => rfl
  | cons p rest ih =>
    rw [List.foldl_cons, ih, fillStep_gamma]

/-- Every write of the fill pass stores a clamped color, so the
channel bounds are preserved over any sequence of fill iterations. -/
theorem fill_foldl_chOK (pw : ℚ → ℚ → ℚ) (F : ℕ → ℚ) (B : ℕ → Bool)
    (l : List Position) :
    ∀ g : Generator, (∀ c ∈ g.data.data, chOK c) →
      ∀ c ∈ (l.foldl (Generator.fillStep pw F B) g).data.data, chOK c := by
  induction l with
  | nil =>
    intro g hg
    exact hg
  | cons p rest ih =>
    intro g hg
    rw [List.foldl_cons]
    apply ih
    intro c hc
    unfold Generator.fillStep at hc
    by_cases hp : p = Position.zero
    · rw [if_pos hp] at hc
      exact hg c hc
    · rw [if_neg hp] at hc
      unfold Generator.fill_pos Pixmap.setPos at hc
      dsimp only at hc
      rcases List.mem_or_eq_of_mem_set hc with h | h
      · exact hg c h
      · subst h
        exact chOK_random_near_fst pw F B _ _ _ _

/-- The freshly constructed buffer (black everywhere, `start_color` at
the seed pixel) satisfies the channel bounds when `start_color` does. -/
theorem new_chOK (p : Params) (hs : chOK p.start_color) :
    ∀ c ∈ (Generator.new p).data.data, chOK c := by
  intro c hc
  unfold Generator.new Pixmap.setPos Pixmap.new at hc
  dsimp only at hc
  rcases List.mem_or_eq_of_mem_set hc with h | h
  · rw [List.eq_of_mem_replicate h]
    unfold chOK Color.black
    norm_num
  · subst h
    exact hs

/-- C2: with `start_color` in `[0,1]`, gamma non-negative (and `powf`
mapping `[0,1]` with a non-negative exponent into `[0,1]`, as the real
power function does), and a spread that accepts at least one neighbor
for every non-origin pixel, every stored color's channels lie in
`[0,1]` after the fill pass, and again after the gamma pass. -/
theorem c2_channel_bounds (pw : ℚ → ℚ → ℚ) (F : ℕ → ℚ) (B : ℕ → Bool) (p : Params)
    (hpw : ∀ x y : ℚ, 0 ≤ x → x ≤ 1 → 0 ≤ y → 0 ≤ pw x y ∧ pw x y ≤ 1)
    (hs : chOK p.start_color) (hγ : 0 ≤ p.gamma)
    (_hspread : 1 ≤ match p.spread with | .square w => w | .quarterCircle r => r) :
    (∀ c ∈ (Generator.fill pw F B (Generator.new p)).data.data, chOK c) ∧
    (∀ c ∈ (Generator.apply_all pw F B (Generator.new p)).data.data, chOK c) := by
  have hfill : ∀ c ∈ (Generator.fill pw F B (Generator.new p)).data.data, chOK c := by
    unfold Generator.fill
    exact fill_foldl_chOK pw F B _ _ (new_chOK p hs)
  refine ⟨hfill, ?_⟩
  intro c hc
  unfold Generator.apply_all Generator.apply_gamma at hc
  dsimp only at hc
  rw [List.mem_map] at hc
  obtain ⟨c0, hc0, rfl⟩ := hc
  obtain ⟨h1, h2, h3, h4, h5, h6⟩ := hfill c0 hc0
  have hγ' : (Generator.fill pw F B (Generator.new p)).gamma = p.gamma :=
    fill_gamma pw F B (Generator.new p)
  unfold Color.powf chOK
  rw [hγ']
  dsimp only
  obtain ⟨hr1, hr2⟩ := hpw c0.red p.gamma h1 h2 hγ
  obtain ⟨hg1, hg2⟩ := hpw c0.green p.gamma h3 h4 hγ
  obtain ⟨hb1, hb2⟩ := hpw c0.blue p.gamma h5 h6 hγ
  exact ⟨hr1, hr2, hg1, hg2, hb1, hb2⟩

/-- `clampQ` leaves a value already in `[lo, hi]` unchanged. -/
theorem clampQ_of_mem (x : ℚ) (h1 : 0 ≤ x) (h2 : x ≤ 1) : Color.clampQ x 0 1 = x := by
  unfold Color.clampQ
  rw [if_neg (not_lt.mpr h1), if_neg (not_lt.mpr h2)]

/-- `Color::clamp` leaves a color with channels in `[0, 1]` unchanged. -/
theorem clamp_of_chOK (c : Color) (h : chOK c) : c.clamp 0 1 = c := by
  obtain ⟨h1, h2, h3, h4, h5, h6⟩ := h
  unfold Color.clamp
  rw [clampQ_of_mem _ h1 h2, clampQ_of_mem _ h3 h4, clampQ_of_mem _ h5 h6]

/-- With `random_max = 0` the jitter magnitude is zero, so
`random_near` returns its input color (already in `[0, 1]`) exactly. -/
theorem random_near_rm_zero (pw : ℚ → ℚ → ℚ) (F : ℕ → ℚ) (B : ℕ → Bool)
    (rp : ℚ) (k : ℕ) (c : Color) (h : chOK c) :
    (Generator.random_near pw F B rp 0 k c).1 = c := by
  unfold Generator.random_near Generator.component Generator.genF Generator.genB
  dsimp only
  have hz : ∀ (u : ℚ) (b : Bool), pw u rp * 0 * (if b then (1 : ℚ) else -1) = 0 := by
    intro u b
    rw [mul_zero, zero_mul]
  rw [hz, hz, hz]
  have hadd : Color.add c ⟨0, 0, 0⟩ = c := by
    unfold Color.add
    simp
  rw [hadd]
  exact clamp_of_chOK c h

/-- C8: for dimensions `{2,1}`, square spread of width 1 and
`random_max = 0`, the pixel at `(1,0)` after the fill and gamma passes
equals `start_color` raised elementwise to `gamma`, exactly: its only
accepted neighbor is the seed pixel `(0,0)` at distance 1, whose
weight `1^distance_power = 1` is the only nonzero weight, and the
jitter magnitude is forced to zero.  (The hypotheses on `pw` are the
`powf` identities `1^y = 1` and `0^2 = 0`, exact even for `f32`.) -/
theorem c8_scenario_b (pw : ℚ → ℚ → ℚ) (F : ℕ → ℚ) (B : ℕ → Bool) (p : Params)
    (hdim : p.dimensions = ⟨2, 1⟩) (hsp : p.spread = .square 1)
    (hrm : p.random_max = 0) (hs : chOK p.start_color)
    (hpw1 : ∀ y : ℚ, pw 1 y = 1) (hpw0 : pw 0 2 = 0) :
    (Generator.apply_all pw F B (Generator.new p)).data.getPos ⟨1, 0⟩ =
      p.start_color.powf pw p.gamma := by
  obtain ⟨dims, spr, dp, rp, rm, γ, sc, sd⟩ := p
  dsimp only at hdim hsp hrm hs ⊢
  subst hdim hsp hrm
  set g0 : Generator :=
    Generator.new ⟨⟨2, 1⟩, Spread.square 1, dp, rp, 0, γ, sc, sd⟩ with hg0
  have hspr : g0.spread = Spread.square 1 := rfl
  have hdp : g0.distance_power = dp := rfl
  have hrp : g0.random_power = rp := rfl
  have hrm0 : g0.random_max = 0 := rfl
  have hrk : g0.rk = 0 := rfl
  have hdata : g0.data = ⟨⟨2, 1⟩, [sc, Color.black]⟩ := rfl
  have hz : ({ x := 0, y := 0 } : Position) = Position.zero := rfl
  have havg : Generator.avg_neighbor pw g0 ⟨1, 0⟩ = sc := by
    have e1 : Generator.avgStep pw g0 ⟨1, 0⟩ (0, Color.black) ⟨0, 0⟩
        = (0, Color.black) := by
      unfold Generator.avgStep
      rw [if_pos hz]
    have e2 : Generator.avgStep pw g0 ⟨1, 0⟩ (0, Color.black) ⟨1, 0⟩
        = (0 + 1, Color.black.add (sc.smul 1)) := by
      unfold Generator.avgStep
      rw [if_neg (by decide)]
      dsimp only
      rw [Nat.cast_one, Nat.cast_zero]
      have hd : pw (pw 1 2 + pw 0 2) (1 / 2) = 1 := by
        rw [hpw1 2, hpw0, add_zero, hpw1]
      rw [hd, hspr]
      have hskip : Generator.skipQC (Spread.square 1) 1 = false := rfl
      rw [hskip]
      simp only [Bool.false_eq_true, if_false]
      rw [hdp, hpw1 dp, hdata]
      rfl
    show Color.divF
        (([⟨0, 0⟩, ⟨1, 0⟩] : List Position).foldl
          (Generator.avgStep pw g0 ⟨1, 0⟩) (0, Color.black)).2
        (([⟨0, 0⟩, ⟨1, 0⟩] : List Position).foldl
          (Generator.avgStep pw g0 ⟨1, 0⟩) (0, Color.black)).1 = sc
    rw [List.foldl_cons, e1, List.foldl_cons, e2, List.foldl_nil]
    unfold Color.divF Color.add Color.smul Color.black
    dsimp only
    norm_num
  have hfillpos : Generator.fillStep pw F B g0 ⟨1, 0⟩ =
      { g0 with data := ⟨⟨2, 1⟩, [sc, sc]⟩, rk := 6 } := by
    unfold Generator.fillStep
    rw [if_neg (by decide)]
    unfold Generator.fill_pos
    dsimp only
    rw [havg, hrp, hrm0, hrk, random_near_rm_zero pw F B rp 0 sc hs]
    rw [hdata]
    rfl
  have hfill : Generator.fill pw F B g0 =
      { g0 with data := ⟨⟨2, 1⟩, [sc, sc]⟩, rk := 6 } := by
    show ([⟨0, 0⟩, ⟨1, 0⟩] : List Position).foldl (Generator.fillStep pw F B) g0 = _
    rw [List.foldl_cons]
    have h00 : Generator.fillStep pw F B g0 ⟨0, 0⟩ = g0 := by
      unfold Generator.fillStep
      rw [if_pos hz]
    rw [h00, List.foldl_cons, hfillpos, List.foldl_nil]
  unfold Generator.apply_all
  rw [hfill]
  rfl

/-! ## Concrete instantiations used by the witnesses -/

/-- A concrete power model: `pw x y = x`.  It satisfies the `powf`
identities the theorems assume (`1^y = 1`, `0^2 = 0`, and mapping
`[0,1]` into `[0,1]`). -/
def pwW : ℚ → ℚ → ℚ := fun x _ => x

/-- A concrete float draw stream. -/
def rngFW : ℕ → ℚ := fun _ => 0

/-- A concrete boolean draw stream. -/
def rngBW : ℕ → Bool := fun _ => true

/-- A concrete seed-indexed float stream model. -/
def FfW : Seed → ℕ → ℚ := fun _ _ => 0

/-- A concrete seed-indexed boolean stream model. -/
def BfW : Seed → ℕ → Bool := fun _ _ => true

/-- A concrete resolved parameter set: 2×1 image, square spread of
width 1, zero jitter, `start_color = (1/2, 1/3, 1/4)`. -/
def paramsW : Params :=
  ⟨⟨2, 1⟩, Spread.square 1, -(7 / 4), 7 / 2, 0, 3 / 4, ⟨1 / 2, 1 / 3, 1 / 4⟩, []⟩

/-- An in-memory sink that appends every chunk to its state. -/
def logPush (c s : List ℕ) : List ℕ × Except Unit Unit := (s ++ c, Except.ok ())

/-- A sink that discards its input. -/
def unitPush (_ : List ℕ) (s : Unit) : Unit × Except Unit Unit := (s, Except.ok ())

/-- Witness for C2 at the concrete parameter set and power model. -/
theorem c2_channel_bounds_witness :
    (∀ x y : ℚ, 0 ≤ x → x ≤ 1 → 0 ≤ y → 0 ≤ pwW x y ∧ pwW x y ≤ 1) ∧
    chOK paramsW.start_color ∧ 0 ≤ paramsW.gamma ∧
    (1 ≤ match paramsW.spread with | .square w => w | .quarterCircle r => r) ∧
    ((∀ c ∈ (Generator.fill pwW rngFW rngBW (Generator.new paramsW)).data.data,
        chOK c) ∧
      (∀ c ∈ (Generator.apply_all pwW rngFW rngBW (Generator.new paramsW)).data.data,
        chOK c)) :=
  ⟨fun _ _ hx hx1 _ => ⟨hx, hx1⟩, by norm_num [paramsW, chOK],
    by norm_num [paramsW], by decide,
    c2_channel_bounds pwW rngFW rngBW paramsW (fun _ _ hx hx1 _ => ⟨hx, hx1⟩)
      (by norm_num [paramsW, chOK]) (by norm_num [paramsW]) (by decide)⟩

/-- Witness for C3 at a concrete position, offset and window. -/
theorem c3_neighbor_window_safe_witness :
    ((⟨1, 1⟩ : Position).x < (⟨2, 2⟩ : Dimensions).width) ∧
    ((⟨1, 1⟩ : Position).y < (⟨2, 2⟩ : Dimensions).height) ∧
    ((⟨1, 0⟩ : Position) ∈ ((Spread.square 1).bounds.dmin
      (Dimensions.ofPos ((⟨1, 1⟩ : Position).add ⟨1, 1⟩))).positionsList) ∧
    ((⟨1, 0⟩ : Position).x ≤ (⟨1, 1⟩ : Position).x ∧
      (⟨1, 0⟩ : Position).y ≤ (⟨1, 1⟩ : Position).y ∧
      (⟨1, 1⟩ : Position).y * (⟨2, 2⟩ : Dimensions).width + (⟨1, 1⟩ : Position).x <
        (⟨2, 2⟩ : Dimensions).count ∧
      ((⟨1, 0⟩ : Position) ≠ Position.zero →
        ((⟨1, 1⟩ : Position).sub ⟨1, 0⟩).x < (⟨2, 2⟩ : Dimensions).width ∧
        ((⟨1, 1⟩ : Position).sub ⟨1, 0⟩).y < (⟨2, 2⟩ : Dimensions).height ∧
        ((⟨1, 1⟩ : Position).sub ⟨1, 0⟩).y * (⟨2, 2⟩ : Dimensions).width +
            ((⟨1, 1⟩ : Position).sub ⟨1, 0⟩).x <
          (⟨1, 1⟩ : Position).y * (⟨2, 2⟩ : Dimensions).width +
            (⟨1, 1⟩ : Position).x)) :=
  ⟨by decide, by decide, by decide,
    c3_neighbor_window_safe (Spread.square 1) ⟨2, 2⟩ ⟨1, 1⟩ ⟨1, 0⟩
      (by decide) (by decide) (by decide)⟩

/-- Witness for C4 at the concrete parameter set with an in-memory
buffer sink and a discarding sink. -/
theorem c4_determinism_witness :
    (∀ (c s : List ℕ), (logPush c s).2 = Except.ok ()) ∧
    (∀ (c : List ℕ) (s : Unit), (unitPush c s).2 = Except.ok ()) ∧
    ((sinkCalls logPush (Generator.generateChunks pwW (FfW paramsW.seed)
        (BfW paramsW.seed) (Generator.new paramsW)) []).map Prod.fst =
      (sinkCalls unitPush (Generator.generateChunks pwW (FfW paramsW.seed)
        (BfW paramsW.seed) (Generator.new paramsW)) ()).map Prod.fst ∧
    Generator.generate_with pwW (FfW paramsW.seed) (BfW paramsW.seed)
        (Generator.new paramsW) logPush [] =
      ((Generator.generateChunks pwW (FfW paramsW.seed) (BfW paramsW.seed)
        (Generator.new paramsW)).foldl (fun t c => (logPush c t).1) [],
        Except.ok ()) ∧
    Generator.generate_with pwW (FfW paramsW.seed) (BfW paramsW.seed)
        (Generator.new paramsW) unitPush () =
      ((Generator.generateChunks pwW (FfW paramsW.seed) (BfW paramsW.seed)
        (Generator.new paramsW)).foldl (fun t c => (unitPush c t).1) (),
        Except.ok ())) :=
  ⟨fun _ _ => rfl, fun _ _ => rfl,
    c4_determinism pwW FfW BfW paramsW logPush unitPush [] ()
      (fun _ _ => rfl) (fun _ _ => rfl)⟩

/-- Witness for C5 at a concrete 2×1 buffer. -/
theorem c5_to_bgr_length_witness :
    (∀ c ∈ (⟨⟨2, 1⟩, [Color.black, Color.black]⟩ : Pixmap).data, chOK c) ∧
    ((⟨⟨2, 1⟩, [Color.black, Color.black]⟩ : Pixmap).data.length =
      (⟨⟨2, 1⟩, [Color.black, Color.black]⟩ : Pixmap).dimensions.count) ∧
    ((⟨⟨2, 1⟩, [Color.black, Color.black]⟩ : Pixmap).to_bgr.length =
      (⟨⟨2, 1⟩, [Color.black, Color.black]⟩ : Pixmap).dimensions.height *
        Pixmap.rowSize
          (⟨⟨2, 1⟩, [Color.black, Color.black]⟩ : Pixmap).dimensions.width ∧
      Pixmap.rowSize
          (⟨⟨2, 1⟩, [Color.black, Color.black]⟩ : Pixmap).dimensions.width % 4 = 0 ∧
      (⟨⟨2, 1⟩, [Color.black, Color.black]⟩ : Pixmap).dimensions.width * 3 ≤
        Pixmap.rowSize
          (⟨⟨2, 1⟩, [Color.black, Color.black]⟩ : Pixmap).dimensions.width ∧
      Pixmap.rowSize
          (⟨⟨2, 1⟩, [Color.black, Color.black]⟩ : Pixmap).dimensions.width -
        (⟨⟨2, 1⟩, [Color.black, Color.black]⟩ : Pixmap).dimensions.width * 3 < 4) :=
  ⟨by decide, by decide,
    c5_to_bgr_length ⟨⟨2, 1⟩, [Color.black, Color.black]⟩ (by decide) (by decide)⟩

/-- Witness for C8 at the concrete parameter set and power model. -/
theorem c8_scenario_b_witness :
    paramsW.dimensions = ⟨2, 1⟩ ∧ paramsW.spread = .square 1 ∧
    paramsW.random_max = 0 ∧ chOK paramsW.start_color ∧
    (∀ y : ℚ, pwW 1 y = 1) ∧ pwW 0 2 = 0 ∧
    (Generator.apply_all pwW rngFW rngBW (Generator.new paramsW)).data.getPos ⟨1, 0⟩ =
      paramsW.start_color.powf pwW paramsW.gamma :=
  ⟨rfl, rfl, rfl, by norm_num [paramsW, chOK], fun _ => rfl, rfl,
    c8_scenario_b pwW rngFW rngBW paramsW rfl rfl rfl (by norm_num [paramsW, chOK])
      (fun _ => rfl) rfl⟩

end Plumage
